import Mathlib

/-
Verification of the ring-resonator resonance-analysis pipeline of this
repository (src/Tests/Performance/ring_q_analysis.py and
src/Tests/Performance/ring_resonance_analysis.py).

Shallow embedding conventions:
* dBm power samples and wavelengths are idealized as rationals (the input
  data); derived real-valued quantities (linear powers 10^(p/10),
  logarithms, pi, square roots) live in ℝ.
* scipy library calls that are pure numerics with a documented contract are
  embedded faithfully at the level the claims need:
  - `scipy.signal.find_peaks` (local-maximum scan with plateau midpoints,
    `height` filter, `distance` selection by decreasing peak height) is
    implemented in full below, since several claims are about its exact
    selection behaviour;
  - `scipy.signal.savgol_filter` is an abstract parameter `sg` of the
    detection function (its output values are data to the claims), except
    for its documented precondition: with the default mode it raises
    ValueError when the input has fewer samples than the window length;
  - `scipy.optimize.curve_fit` is an abstract oracle parameter: the source
    imposes no bounds on the returned parameters, so the fit result is an
    arbitrary parameter vector (or a failure), exactly as the code treats it.
* Python exceptions are modelled with `Except`; a fit that is skipped or
  fails returns `none`.
-/

deriving instance DecidableEq for Except


namespace PHCEP

/-! ### numpy-style min/max over nonempty lists (np.min / np.max) -/

/-- Minimum of a list, `np.min`-style: meaningful on nonempty lists
(numpy raises on empty input; the claims only use it on nonempty data). -/
def npMin {α : Type _} [LinearOrder α] [Inhabited α] : List α → α
  | [] => default
  | a :: t => t.foldl min a

/-- Maximum of a list, `np.max`-style. -/
def npMax {α : Type _} [LinearOrder α] [Inhabited α] : List α → α
  | [] => default
  | a :: t => t.foldl max a

/-! ### scipy.signal `_local_maxima_1d`: local maxima with plateau midpoints

The scipy scan: for `i` from 1 while `i < i_max` (`i_max = n - 1`): if
`x[i-1] < x[i]`, advance `i_ahead` from `i+1` while `i_ahead < i_max` and
`x[i_ahead] == x[i]`; if then `x[i_ahead] < x[i]`, record the plateau
midpoint `(i + i_ahead - 1) // 2` and resume at `i_ahead + 1`; otherwise
resume at `i + 1`.  The recursion is bounded by an explicit fuel; each
step advances the position by at least one, so fuel `n` is enough for the
scan to run to completion (the wrappers below pass that). -/

/-- End of the plateau of value `v` starting at `j`: first position `≥ j`
that is `≥ iMax` or carries a value different from `v`. -/
def plateauEndF : ℕ → List ℚ → ℚ → ℕ → ℕ → ℕ
  | 0, _, _, _, j => j
  | fuel + 1, x, v, iMax, j =>
    if j < iMax ∧ x.getD j 0 = v then plateauEndF fuel x v iMax (j + 1) else j

/-- The scipy local-maxima scan (see the section comment). -/
def localMaximaAuxF : ℕ → List ℚ → ℕ → ℕ → List ℕ
  | 0, _, _, _ => []
  | fuel + 1, x, iMax, i =>
    if i < iMax then
      if x.getD (i - 1) 0 < x.getD i 0 then
        let j := plateauEndF iMax x (x.getD i 0) iMax (i + 1)
        if x.getD j 0 < x.getD i 0 then
          (i + (j - 1)) / 2 :: localMaximaAuxF fuel x iMax (j + 1)
        else
          localMaximaAuxF fuel x iMax (i + 1)
      else
        localMaximaAuxF fuel x iMax (i + 1)
    else []

/-- `scipy.signal._local_maxima_1d`: indices of the local maxima of `x`
(plateau midpoints), scanned over interior positions `1 .. x.length - 2`. -/
def localMaxima (x : List ℚ) : List ℕ :=
  localMaximaAuxF x.length x (x.length - 1) 1

/-! ### scipy.signal `_select_by_peak_distance`

Peaks are visited in order of decreasing priority (their heights); a peak
still marked "keep" when visited unmarks every other peak closer than
`distance` (scipy pre-rounds the distance with `ceil`).  Peak positions
are sorted, so scipy's two outward scans unmark exactly the peaks whose
absolute value-distance is below the threshold. -/

/-- Processing order relation: position `a` before position `b` when `a`'s
priority is at least `b`'s (scipy iterates `argsort(priority)` backwards). -/
def prioGE (priority : List ℚ) (a b : ℕ) : Prop :=
  priority.getD b 0 ≤ priority.getD a 0

instance (prio : List ℚ) : DecidableRel (prioGE prio) := fun a b =>
  inferInstanceAs (Decidable (prio.getD b 0 ≤ prio.getD a 0))

/-- One visit of the scipy loop at peak position `j`. -/
def stepKeep (peaks : List ℕ) (d : ℤ) (keep : ℕ → Bool) (j : ℕ) : ℕ → Bool :=
  if keep j then
    fun k =>
      if k ≠ j ∧ |(peaks.getD k 0 : ℤ) - (peaks.getD j 0 : ℤ)| < d then false
      else keep k
  else keep

/-- Keep-mask after visiting all positions of `order`. -/
def keepAfter (peaks : List ℕ) (d : ℤ) (order : List ℕ) : ℕ → Bool :=
  order.foldl (stepKeep peaks d) (fun _ => true)

/-- `scipy.signal._select_by_peak_distance` followed by `peaks[keep]`. -/
def selectByPeakDistance (peaks : List ℕ) (priority : List ℚ) (d : ℤ) : List ℕ :=
  let order := List.insertionSort (prioGE priority) (List.range peaks.length)
  let keep := keepAfter peaks d order
  ((List.range peaks.length).filter keep).map (fun a => peaks.getD a 0)

/-! ### scipy.signal.find_peaks and the repository's find_resonances -/

/-- `scipy.signal.find_peaks(x, height=height, distance=distance)`:
local maxima, then the `height` filter (`height ≤ x[peak]`), then the
distance selection with priority = peak height.  scipy raises ValueError
when `distance < 1`; the distance is pre-rounded with `ceil`. -/
def find_peaks (x : List ℚ) (height : ℚ) (distance : ℚ) : Except Unit (List ℕ) :=
  if distance < 1 then Except.error ()
  else
    let peaks := (localMaxima x).filter (fun m => decide (height ≤ x.getD m 0))
    Except.ok (selectByPeakDistance peaks (peaks.map (fun m => x.getD m 0)) ⌈distance⌉)

/-- Pointwise negation, the `-smoothed` of the source. -/
def negList (l : List ℚ) : List ℚ := l.map (fun v => -v)

/-- `find_resonances(wavelengths, powers, min_depth=3, min_separation=0.1)`
from ring_q_analysis.py (ring_resonance_analysis.py is identical with
default `min_separation=0.5` and without the unused `wavelengths`
argument, which the first copy also ignores):

    smoothed = savgol_filter(powers, 11, 3)
    dips, properties = find_peaks(-smoothed, height=min_depth,
                                  distance=min_separation/0.001)

`savgol_filter` is library numerics and enters as the abstract smoothing
function `sg`; its documented precondition is kept: with the default
`mode='interp'` it raises ValueError when the input is shorter than the
window length 11. -/
def find_resonances (sg : List ℚ → List ℚ) (wavelengths powers : List ℚ)
    (min_depth min_separation : ℚ) : Except Unit (List ℕ) :=
  if powers.length < 11 then Except.error ()
  else
    let smoothed := sg powers
    find_peaks (negList smoothed) min_depth (min_separation / (1 / 1000))

/-- Interior weak local minimum of a trace: the value at `i` is at most
both neighbouring values. -/
def weakLocalMinAt (s : List ℚ) (i : ℕ) : Prop :=
  0 < i ∧ i + 1 < s.length ∧
    s.getD i 0 ≤ s.getD (i - 1) 0 ∧ s.getD i 0 ≤ s.getD (i + 1) 0

/-! ### Single-resonance Lorentzian fit

`scipy.optimize.curve_fit` is embedded as an abstract oracle: it receives
exactly what the source passes it (the wavelength sub-window, the
linear-power sub-window and the initial guess `p0`) and produces either a
parameter vector `popt` or a failure (the source catches every exception
and returns None).  The source places no bounds on `popt`, so no
constraint on the oracle's output is assumed anywhere. -/

/-- Lorentzian parameter vector `[A, x0, gamma, offset]` as passed to and
returned from `curve_fit`. -/
structure LorentzParams where
  A : ℝ
  x0 : ℝ
  gamma : ℝ
  offset : ℝ

/-- Abstract `curve_fit` oracle: wavelength region, linear-power region,
initial guess ↦ fitted parameters, or `none` on failure. -/
def FitOracle : Type := List ℚ → List ℝ → LorentzParams → Option LorentzParams

/-- Conversion of a dBm sample to linear power: `10**(p/10)`. -/
noncomputable def toLinear (p : ℚ) : ℝ := (10 : ℝ) ^ ((p : ℝ) / 10)

/-- The boolean mask `(wavelengths >= center - window) & (wavelengths <= center + window)`
with `center = wavelengths[resonance_idx]`. -/
def windowPred (wl : List ℚ) (idx : ℕ) (window : ℚ) (lam : ℚ) : Bool :=
  decide (wl.getD idx 0 - window ≤ lam ∧ lam ≤ wl.getD idx 0 + window)

/-- `wl_region = wavelengths[mask]`. -/
def regionWl (wl : List ℚ) (idx : ℕ) (window : ℚ) : List ℚ :=
  wl.filter (windowPred wl idx window)

/-- `powers[mask]` (the two columns come from the same CSV rows, so the
lists have equal length and masking powers by the wavelength predicate is
selection over the zipped rows). -/
def regionPw (wl pw : List ℚ) (idx : ℕ) (window : ℚ) : List ℚ :=
  ((wl.zip pw).filter (fun q => windowPred wl idx window q.1)).map Prod.snd

/-- ring_q_analysis.py: `10**(np.array(powers[mask])/10)` — mask first,
then convert to linear scale. -/
noncomputable def regionLin (wl pw : List ℚ) (idx : ℕ) (window : ℚ) : List ℝ :=
  (regionPw wl pw idx window).map toLinear

/-- ring_resonance_analysis.py: `self.power_linear[mask]` — convert the
whole trace to linear scale at construction, then mask. -/
noncomputable def regionLin2 (wl pw : List ℚ) (idx : ℕ) (window : ℚ) : List ℝ :=
  ((wl.zip (pw.map toLinear)).filter (fun q => windowPred wl idx window q.1)).map Prod.snd

/-- Initial parameter guesses of ring_q_analysis.py: amplitude from 10% of
the window's span, centre at the candidate wavelength, `gamma = 0.05` nm,
offset at the window minimum (linear). -/
noncomputable def initialGuess (wl pw : List ℚ) (idx : ℕ) (window : ℚ) : LorentzParams :=
  ⟨(npMax (regionLin wl pw idx window) - npMin (regionLin wl pw idx window)) * (1 / 10),
    ((wl.getD idx 0 : ℚ) : ℝ), 1 / 20, npMin (regionLin wl pw idx window)⟩

/-- Initial parameter guesses of ring_resonance_analysis.py (the same
formulas over its own linear-power region). -/
noncomputable def initialGuess2 (wl pw : List ℚ) (idx : ℕ) (window : ℚ) : LorentzParams :=
  ⟨(npMax (regionLin2 wl pw idx window) - npMin (regionLin2 wl pw idx window)) * (1 / 10),
    ((wl.getD idx 0 : ℚ) : ℝ), 1 / 20, npMin (regionLin2 wl pw idx window)⟩

/-- Result record of `fit_single_resonance` (ring_q_analysis.py). -/
structure FittedResonance where
  resonance_wavelength : ℝ
  fwhm_nm : ℝ
  fwhm_pm : ℝ
  Q_factor : ℝ
  extinction_ratio_dB : ℝ
  fit_region_lo : ℚ
  fit_region_hi : ℚ

/-- Result record of `fit_resonance` (ring_resonance_analysis.py). -/
structure FittedResonance2 where
  resonance_wavelength : ℝ
  fwhm : ℝ
  Q_factor : ℝ
  depth_dB : ℝ

/-- `fit_single_resonance(wavelengths, powers, resonance_idx, window=1.0)`
of ring_q_analysis.py: extract the ±window region, skip if it has fewer
than 10 samples, run `curve_fit`, and on success derive
`fwhm = 2*popt[2]`, `Q = popt[1]/fwhm`, and the extinction ratio
`-10*log10(min/max)` over the window's linear powers. -/
noncomputable def fit_single_resonance (wl pw : List ℚ) (idx : ℕ) (window : ℚ)
    (opt : FitOracle) : Option FittedResonance :=
  if (regionWl wl idx window).length < 10 then none
  else
    match opt (regionWl wl idx window) (regionLin wl pw idx window)
        (initialGuess wl pw idx window) with
    | none => none
    | some popt =>
      some
        { resonance_wavelength := popt.x0
          fwhm_nm := 2 * popt.gamma
          fwhm_pm := 2 * popt.gamma * 1000
          Q_factor := popt.x0 / (2 * popt.gamma)
          extinction_ratio_dB :=
            -10 * Real.logb 10
              (npMin (regionLin wl pw idx window) / npMax (regionLin wl pw idx window))
          fit_region_lo := npMin (regionWl wl idx window)
          fit_region_hi := npMax (regionWl wl idx window) }

/-- `fit_resonance(resonance_idx, window=1.0)` of
ring_resonance_analysis.py: same skeleton, but the returned record carries
`depth_dB = -10*log10((popt[3]+popt[0])/popt[3])` computed from the fitted
parameters (`np.sum(mask)` is the number of wavelengths in the window,
i.e. the length of the filtered wavelength list). -/
noncomputable def fit_resonance (wl pw : List ℚ) (idx : ℕ) (window : ℚ)
    (opt : FitOracle) : Option FittedResonance2 :=
  if (wl.countP (windowPred wl idx window)) < 10 then none
  else
    match opt (regionWl wl idx window) (regionLin2 wl pw idx window)
        (initialGuess2 wl pw idx window) with
    | none => none
    | some popt =>
      some
        { resonance_wavelength := popt.x0
          fwhm := 2 * popt.gamma
          Q_factor := popt.x0 / (2 * popt.gamma)
          depth_dB := -10 * Real.logb 10 ((popt.offset + popt.A) / popt.offset) }

/-- The per-candidate loop of `analyze_ring_spectrum`: fit every detected
candidate, keep the successful results in order. -/
noncomputable def fitAll (wl pw : List ℚ) (idxs : List ℕ) (window : ℚ)
    (opt : FitOracle) : List FittedResonance :=
  idxs.filterMap (fun idx => fit_single_resonance wl pw idx window opt)

/-! ### Spectrum-level aggregation: FSR and group/effective index -/

/-- `calculate_fsr(resonance_wavelengths)` of ring_q_analysis.py: with at
least two wavelengths, sort them and return the mean and the (population)
standard deviation of `np.diff(sorted)`; otherwise `(None, None)`. -/
noncomputable def calculate_fsr (resonance_wavelengths : List ℚ) : Option (ℚ × ℝ) :=
  if resonance_wavelengths.length < 2 then none
  else
    let sorted_wl := List.insertionSort (· ≤ ·) resonance_wavelengths
    let fsr_values := (sorted_wl.zip sorted_wl.tail).map (fun q => q.2 - q.1)
    let avg_fsr := fsr_values.sum / (fsr_values.length : ℚ)
    let std_fsr := Real.sqrt
      ((fsr_values.map (fun v => ((v : ℝ) - (avg_fsr : ℝ)) ^ 2)).sum /
        (fsr_values.length : ℝ))
    some (avg_fsr, std_fsr)

/-- `calculate_effective_index(fsr, radius=10)` of ring_q_analysis.py:
`circumference = 2*pi*radius`, `n_g = 1550**2/(fsr*circumference*1e-3)`,
returned as `(n_eff, n_g)` with `n_eff = n_g`. -/
noncomputable def calculate_effective_index (fsr radius : ℝ) : ℝ × ℝ :=
  let circumference := 2 * Real.pi * radius
  let n_g := 1550 ^ 2 / (fsr * circumference * (1 / 1000))
  (n_g, n_g)

/-- The inline effective-index computation of `analyze_all_resonances`
(ring_resonance_analysis.py line 100):
`n_eff = (avg_fsr * 2 * np.pi * ring_radius) / (1550**2 * 1e-3)`. -/
noncomputable def inline_effective_index (avg_fsr ring_radius : ℝ) : ℝ :=
  (avg_fsr * 2 * Real.pi * ring_radius) / (1550 ^ 2 * (1 / 1000))

/-- The FSR/index aggregation step of `analyze_ring_spectrum` (lines
141-151): with at least two successfully fitted wavelengths compute
`calculate_fsr` and `calculate_effective_index`; otherwise all four
outputs are `None`. -/
noncomputable def aggregate_fsr_index (valid_resonances : List ℚ) (ring_radius : ℝ) :
    Option (ℚ × ℝ) × Option (ℝ × ℝ) :=
  if 2 ≤ valid_resonances.length then
    match calculate_fsr valid_resonances with
    | some (avg, sd) =>
      (some (avg, sd), some (calculate_effective_index (avg : ℝ) ring_radius))
    | none => (none, none)
  else (none, none)

/-- Stated from the spec's words: "sort their center wavelengths and
compute the ... consecutive spacings". -/
def specConsecutiveSpacings (l : List ℚ) : List ℚ :=
  ((List.insertionSort (· ≤ ·) l).zip (List.insertionSort (· ≤ ·) l).tail).map
    (fun q => q.2 - q.1)

/-- Stated from the spec's words: the mean of the consecutive spacings. -/
def specMeanSpacing (l : List ℚ) : ℚ :=
  (specConsecutiveSpacings l).sum / ((specConsecutiveSpacings l).length : ℚ)

/-- Stated from the spec's words: the standard deviation of the
consecutive spacings (population form, as `np.std` computes it). -/
noncomputable def specStdSpacing (l : List ℚ) : ℝ :=
  Real.sqrt
    (((specConsecutiveSpacings l).map
        (fun v => ((v : ℝ) - (specMeanSpacing l : ℝ)) ^ 2)).sum /
      ((specConsecutiveSpacings l).length : ℝ))

/-! ### Concrete data for witnesses and counterexamples -/

/-- Identity smoothing instance: the smoothing function is an abstract
parameter of the detection step, and the concrete runs below exercise it
with the identity (the detection claims are about the code downstream of
the smoother, for an arbitrary smoothed trace). -/
def sgId : List ℚ → List ℚ := fun l => l

/-- Five wavelength samples (shorter than the smoothing window 11). -/
def wl5 : List ℚ := [1, 2, 3, 4, 5]

/-- Five power samples. -/
def pw5 : List ℚ := [0, 0, 0, 0, 0]

/-- Seven power samples, also shorter than the smoothing window. -/
def pw7 : List ℚ := [0, 0, 0, 0, 0, 0, 0]

/-- Eleven wavelengths, 0.1 nm apart. -/
def wl11 : List ℚ := (List.range 11).map (fun k => (k : ℚ) / 10)

/-- A shallow dip: baseline between -4.2 and -4 dBm with a -5 dBm minimum at index 5;
its depth relative to the neighbouring local maxima (-4 dBm at indices 4
and 6) is exactly 1 dB. -/
def pwShallow : List ℚ :=
  [-21/5, -4, -21/5, -21/5, -4, -5, -4, -21/5, -21/5, -4, -21/5]

/-- Twenty-one wavelengths, 0.0005 nm apart (finer than the 0.001 nm
sampling hard-coded in the detection step). -/
def wl21 : List ℚ := (List.range 21).map (fun k => (k : ℚ) / 2000)

/-- A trace with two -5 dBm dips at indices 5 and 15 on a -4 dBm
baseline. -/
def pw21 : List ℚ :=
  (List.range 21).map (fun k => if k = 5 ∨ k = 15 then (-5 : ℚ) else -4)

/-- Eleven power samples with a -10 dBm dip at index 5 on a 0 dBm
baseline. -/
def pwDip : List ℚ := [0, 0, 0, 0, 0, -10, 0, 0, 0, 0, 0]

/-- Eleven wavelengths 10 nm apart: the ±1 nm window around any sample
contains only that sample. -/
def wlSparse : List ℚ := (List.range 11).map (fun k => (k : ℚ) * 10)

/-- Eleven zero power samples. -/
def pwZero : List ℚ := [0, 0, 0, 0, 0, 0, 0, 0, 0, 0, 0]

/-- A well-behaved oracle outcome: `A = 1`, `x0 = 1550`, `gamma = 0.05`,
`offset = 1`. -/
noncomputable def optGood : FitOracle := fun _ _ _ => some ⟨1, 1550, 1 / 20, 1⟩

/-- An oracle outcome with negative width and centre far outside the
window: `curve_fit` is unconstrained, and the Lorentzian model depends on
`gamma` only through `gamma**2`, so sign-flipped widths are reachable
fits. -/
noncomputable def optBad : FitOracle := fun _ _ _ => some ⟨1, 2000, -(1 / 20), 1⟩

theorem foldl_min_le_init {α : Type _} [LinearOrder α] :
    ∀ (t : List α) (a : α), t.foldl min a ≤ a := by
  intro t
  induction t with
  | nil => intro a; exact le_refl a
  | cons b t ih =>
    intro a
    calc (b :: t).foldl min a = t.foldl min (min a b) := rfl
    _ ≤ min a b := ih (min a b)
    _ ≤ a := min_le_left a b

theorem foldl_min_le_mem {α : Type _} [LinearOrder α] :
    ∀ (t : List α) (a b : α), b ∈ t → t.foldl min a ≤ b := by
  intro t
  induction t with
  | nil => intro a b hb; cases hb
  | cons c t ih =>
    intro a b hb
    rcases List.mem_cons.mp hb with h | h
    · subst h
      calc (b :: t).foldl min a = t.foldl min (min a b) := rfl
      _ ≤ min a b := foldl_min_le_init t (min a b)
      _ ≤ b := min_le_right a b
    · exact ih (min a c) b h

theorem foldl_min_mem {α : Type _} [LinearOrder α] :
    ∀ (t : List α) (a : α), t.foldl min a ∈ a :: t := by
  intro t
  induction t with
  | nil => intro a; exact List.mem_singleton.mpr rfl
  | cons b t ih =>
    intro a
    have h := ih (min a b)
    rcases List.mem_cons.mp h with h' | h'
    · rcases min_cases a b with ⟨he, _⟩ | ⟨he, _⟩
      · exact List.mem_cons.mpr (Or.inl (h'.trans he))
      · exact List.mem_cons.mpr (Or.inr (List.mem_cons.mpr (Or.inl (h'.trans he))))
    · exact List.mem_cons.mpr (Or.inr (List.mem_cons.mpr (Or.inr h')))

theorem npMin_le {α : Type _} [LinearOrder α] [Inhabited α] {l : List α} {b : α}
    (hb : b ∈ l) : npMin l ≤ b := by
  cases l with
  | nil => cases hb
  | cons a t =>
    rcases List.mem_cons.mp hb with h | h
    · subst h; exact foldl_min_le_init t b
    · exact foldl_min_le_mem t a b h

theorem npMin_mem {α : Type _} [LinearOrder α] [Inhabited α] {l : List α}
    (h : l ≠ []) : npMin l ∈ l := by
  cases l with
  | nil => exact absurd rfl h
  | cons a t => exact foldl_min_mem t a

theorem init_le_foldl_max {α : Type _} [LinearOrder α] :
    ∀ (t : List α) (a : α), a ≤ t.foldl max a := by
  intro t
  induction t with
  | nil => intro a; exact le_refl a
  | cons b t ih =>
    intro a
    calc a ≤ max a b := le_max_left a b
    _ ≤ t.foldl max (max a b) := ih (max a b)

theorem mem_le_foldl_max {α : Type _} [LinearOrder α] :
    ∀ (t : List α) (a b : α), b ∈ t → b ≤ t.foldl max a := by
  intro t
  induction t with
  | nil => intro a b hb; cases hb
  | cons c t ih =>
    intro a b hb
    rcases List.mem_cons.mp hb with h | h
    · subst h
      calc b ≤ max a b := le_max_right a b
      _ ≤ t.foldl max (max a b) := init_le_foldl_max t (max a b)
    · exact ih (max a c) b h

theorem foldl_max_mem {α : Type _} [LinearOrder α] :
    ∀ (t : List α) (a : α), t.foldl max a ∈ a :: t := by
  intro t
  induction t with
  | nil => intro a; exact List.mem_singleton.mpr rfl
  | cons b t ih =>
    intro a
    have h := ih (max a b)
    rcases List.mem_cons.mp h with h' | h'
    · rcases max_cases a b with ⟨he, _⟩ | ⟨he, _⟩
      · exact List.mem_cons.mpr (Or.inl (h'.trans he))
      · exact List.mem_cons.mpr (Or.inr (List.mem_cons.mpr (Or.inl (h'.trans he))))
    · exact List.mem_cons.mpr (Or.inr (List.mem_cons.mpr (Or.inr h')))

theorem le_npMax {α : Type _} [LinearOrder α] [Inhabited α] {l : List α} {b : α}
    (hb : b ∈ l) : b ≤ npMax l := by
  cases l with
  | nil => cases hb
  | cons a t =>
    rcases List.mem_cons.mp hb with h | h
    · subst h; exact init_le_foldl_max t b
    · exact mem_le_foldl_max t a b h

theorem npMax_mem {α : Type _} [LinearOrder α] [Inhabited α] {l : List α}
    (h : l ≠ []) : npMax l ∈ l := by
  cases l with
  | nil => exact absurd rfl h
  | cons a t => exact foldl_max_mem t a

theorem npMin_le_npMax {α : Type _} [LinearOrder α] [Inhabited α] {l : List α}
    (h : l ≠ []) : npMin l ≤ npMax l :=
  npMin_le (npMax_mem h)

theorem npMin_eq_of {α : Type _} [LinearOrder α] [Inhabited α] {l : List α} {m : α}
    (hm : m ∈ l) (hle : ∀ b ∈ l, m ≤ b) : npMin l = m :=
  le_antisymm (npMin_le hm) (hle _ (npMin_mem (List.ne_nil_of_mem hm)))

theorem npMax_eq_of {α : Type _} [LinearOrder α] [Inhabited α] {l : List α} {m : α}
    (hm : m ∈ l) (hle : ∀ b ∈ l, b ≤ m) : npMax l = m :=
  le_antisymm (hle _ (npMax_mem (List.ne_nil_of_mem hm))) (le_npMax hm)

theorem plateauEndF_ge :
    ∀ (fuel : ℕ) (x : List ℚ) (v : ℚ) (iMax j : ℕ), j ≤ plateauEndF fuel x v iMax j := by
  intro fuel
  induction fuel with
  | zero => intro x v iMax j; exact le_refl j
  | succ fuel ih =>
    intro x v iMax j
    by_cases h : j < iMax ∧ x.getD j 0 = v
    · simp only [plateauEndF, if_pos h]
      exact le_trans (Nat.le_succ j) (ih x v iMax (j + 1))
    · simp only [plateauEndF, if_neg h]
      exact le_refl j

theorem plateauEndF_le :
    ∀ (fuel : ℕ) (x : List ℚ) (v : ℚ) (iMax j : ℕ),
      j ≤ iMax → plateauEndF fuel x v iMax j ≤ iMax := by
  intro fuel
  induction fuel with
  | zero => intro x v iMax j h; exact h
  | succ fuel ih =>
    intro x v iMax j h
    by_cases hc : j < iMax ∧ x.getD j 0 = v
    · simp only [plateauEndF, if_pos hc]
      exact ih x v iMax (j + 1) hc.1
    · simp only [plateauEndF, if_neg hc]; exact h

theorem plateauEndF_eq :
    ∀ (fuel : ℕ) (x : List ℚ) (v : ℚ) (iMax j k : ℕ),
      j ≤ k → k < plateauEndF fuel x v iMax j → x.getD k 0 = v := by
  intro fuel
  induction fuel with
  | zero =>
    intro x v iMax j k hjk hk
    exact absurd hk (not_lt.mpr hjk)
  | succ fuel ih =>
    intro x v iMax j k hjk hk
    by_cases hc : j < iMax ∧ x.getD j 0 = v
    · rw [plateauEndF, if_pos hc] at hk
      rcases Nat.eq_or_lt_of_le hjk with h | h
      · subst h; exact hc.2
      · exact ih x v iMax (j + 1) k h hk
    · rw [plateauEndF, if_neg hc] at hk
      exact absurd hk (not_lt.mpr hjk)

theorem localMaximaAuxF_ge :
    ∀ (fuel : ℕ) (x : List ℚ) (iMax i m : ℕ),
      m ∈ localMaximaAuxF fuel x iMax i → i ≤ m := by
  intro fuel
  induction fuel with
  | zero => intro x iMax i m hm; cases hm
  | succ fuel ih =>
    intro x iMax i m hm
    rw [localMaximaAuxF] at hm
    by_cases h1 : i < iMax
    · rw [if_pos h1] at hm
      by_cases h2 : x.getD (i - 1) 0 < x.getD i 0
      · rw [if_pos h2] at hm
        set j := plateauEndF iMax x (x.getD i 0) iMax (i + 1) with hj
        have hji : i + 1 ≤ j := plateauEndF_ge iMax x (x.getD i 0) iMax (i + 1)
        by_cases h3 : x.getD j 0 < x.getD i 0
        · rw [if_pos h3] at hm
          rcases List.mem_cons.mp hm with h | h
          · subst h; omega
          · have := ih x iMax (j + 1) m h; omega
        · rw [if_neg h3] at hm
          have := ih x iMax (i + 1) m hm; omega
      · rw [if_neg h2] at hm
        have := ih x iMax (i + 1) m hm; omega
    · rw [if_neg h1] at hm; cases hm

theorem localMaximaAuxF_pairwise :
    ∀ (fuel : ℕ) (x : List ℚ) (iMax i : ℕ),
      List.Pairwise (· < ·) (localMaximaAuxF fuel x iMax i) := by
  intro fuel
  induction fuel with
  | zero => intro x iMax i; exact List.Pairwise.nil
  | succ fuel ih =>
    intro x iMax i
    rw [localMaximaAuxF]
    by_cases h1 : i < iMax
    · rw [if_pos h1]
      by_cases h2 : x.getD (i - 1) 0 < x.getD i 0
      · rw [if_pos h2]
        set j := plateauEndF iMax x (x.getD i 0) iMax (i + 1) with hj
        have hji : i + 1 ≤ j := plateauEndF_ge iMax x (x.getD i 0) iMax (i + 1)
        by_cases h3 : x.getD j 0 < x.getD i 0
        · rw [if_pos h3]
          refine List.pairwise_cons.mpr ⟨?_, ih x iMax (j + 1)⟩
          intro m hm
          have := localMaximaAuxF_ge fuel x iMax (j + 1) m hm
          omega
        · rw [if_neg h3]; exact ih x iMax (i + 1)
      · rw [if_neg h2]; exact ih x iMax (i + 1)
    · rw [if_neg h1]; exact List.Pairwise.nil

/-- Every index the scipy scan records is an interior weak local maximum:
its value dominates both neighbours (strictly at the plateau edges). -/
theorem localMaximaAuxF_isMax :
    ∀ (fuel : ℕ) (x : List ℚ) (iMax i m : ℕ),
      m ∈ localMaximaAuxF fuel x iMax i →
      0 < m ∧ m + 1 ≤ iMax ∧
        x.getD (m - 1) 0 ≤ x.getD m 0 ∧ x.getD (m + 1) 0 ≤ x.getD m 0 := by
  intro fuel
  induction fuel with
  | zero => intro x iMax i m hm; cases hm
  | succ fuel ih =>
    intro x iMax i m hm
    rw [localMaximaAuxF] at hm
    by_cases h1 : i < iMax
    · rw [if_pos h1] at hm
      by_cases h2 : x.getD (i - 1) 0 < x.getD i 0
      · rw [if_pos h2] at hm
        set j := plateauEndF iMax x (x.getD i 0) iMax (i + 1) with hj
        have hji : i + 1 ≤ j := plateauEndF_ge iMax x (x.getD i 0) iMax (i + 1)
        have hjM : j ≤ iMax := plateauEndF_le iMax x (x.getD i 0) iMax (i + 1) h1
        by_cases h3 : x.getD j 0 < x.getD i 0
        · rw [if_pos h3] at hm
          rcases List.mem_cons.mp hm with h | h
          · subst h
            set m := (i + (j - 1)) / 2 with hmdef
            have hmi : i ≤ m := by omega
            have hmj : m ≤ j - 1 := by omega
            have hvm : x.getD m 0 = x.getD i 0 := by
              rcases Nat.eq_or_lt_of_le hmi with h' | h'
              · rw [← h']
              · exact plateauEndF_eq iMax x (x.getD i 0) iMax (i + 1) m (by omega) (by omega)
            have hipos : 0 < i := by
              by_contra hz
              have : i = 0 := by omega
              subst this
              simp at h2
            refine ⟨by omega, by omega, ?_, ?_⟩
            · rcases Nat.eq_or_lt_of_le hmi with h' | h'
              · rw [← h']
                exact le_of_lt h2
              · have : x.getD (m - 1) 0 = x.getD i 0 := by
                  rcases Nat.eq_or_lt_of_le (by omega : i ≤ m - 1) with h'' | h''
                  · rw [← h'']
                  · exact plateauEndF_eq iMax x (x.getD i 0) iMax (i + 1) (m - 1)
                      (by omega) (by omega)
                rw [this, hvm]
            · rcases Nat.lt_or_ge (m + 1) j with h' | h'
              · have : x.getD (m + 1) 0 = x.getD i 0 :=
                  plateauEndF_eq iMax x (x.getD i 0) iMax (i + 1) (m + 1) (by omega) h'
                rw [this, hvm]
              · have hmj1 : m + 1 = j := by omega
                rw [hmj1, hvm]
                exact le_of_lt h3
          · exact ih x iMax (j + 1) m h
        · rw [if_neg h3] at hm
          exact ih x iMax (i + 1) m hm
      · rw [if_neg h2] at hm
        exact ih x iMax (i + 1) m hm
    · rw [if_neg h1] at hm; cases hm

theorem localMaxima_pairwise (x : List ℚ) : List.Pairwise (· < ·) (localMaxima x) :=
  localMaximaAuxF_pairwise x.length x (x.length - 1) 1

theorem localMaxima_isMax {x : List ℚ} {m : ℕ} (hm : m ∈ localMaxima x) :
    0 < m ∧ m + 1 ≤ x.length - 1 ∧
      x.getD (m - 1) 0 ≤ x.getD m 0 ∧ x.getD (m + 1) 0 ≤ x.getD m 0 :=
  localMaximaAuxF_isMax x.length x (x.length - 1) 1 m hm

theorem stepKeep_true {peaks : List ℕ} {d : ℤ} {keep : ℕ → Bool} {j k : ℕ}
    (h : stepKeep peaks d keep j k = true) : keep k = true := by
  unfold stepKeep at h
  by_cases hj : keep j
  · rw [if_pos hj] at h
    by_cases hc : k ≠ j ∧ |(peaks.getD k 0 : ℤ) - (peaks.getD j 0 : ℤ)| < d
    · rw [if_pos hc] at h; cases h
    · rwa [if_neg hc] at h
  · rwa [if_neg hj] at h

theorem foldl_stepKeep_true {peaks : List ℕ} {d : ℤ} :
    ∀ (l : List ℕ) (keep : ℕ → Bool) (k : ℕ),
      l.foldl (stepKeep peaks d) keep k = true → keep k = true := by
  intro l
  induction l with
  | nil => intro keep k h; exact h
  | cons j t ih =>
    intro keep k h
    exact stepKeep_true (ih (stepKeep peaks d keep j) k h)

theorem stepKeep_self (peaks : List ℕ) (d : ℤ) (keep : ℕ → Bool) (j : ℕ) :
    stepKeep peaks d keep j j = keep j := by
  unfold stepKeep
  by_cases hj : keep j
  · rw [if_pos hj]
    simp
  · rw [if_neg hj]

theorem stepKeep_removes {peaks : List ℕ} {d : ℤ} {keep : ℕ → Bool} {j k : ℕ}
    (hj : keep j = true) (hk : k ≠ j)
    (hclose : |(peaks.getD k 0 : ℤ) - (peaks.getD j 0 : ℤ)| < d) :
    stepKeep peaks d keep j k = false := by
  unfold stepKeep
  rw [if_pos hj, if_pos ⟨hk, hclose⟩]

/-- Any two distinct positions kept at the end are at least `d` apart in
peak value, provided both were visited. -/
theorem keepAfter_far {peaks : List ℕ} {d : ℤ} {order : List ℕ} {a b : ℕ}
    (ha : a ∈ order) (hab : a ≠ b)
    (hka : keepAfter peaks d order a = true)
    (hkb : keepAfter peaks d order b = true) :
    d ≤ |(peaks.getD a 0 : ℤ) - (peaks.getD b 0 : ℤ)| := by
  by_contra hlt
  push_neg at hlt
  obtain ⟨l₁, l₂, rfl⟩ := List.append_of_mem ha
  unfold keepAfter at hka hkb
  rw [List.foldl_append, List.foldl_cons] at hka hkb
  set K₁ := l₁.foldl (stepKeep peaks d) (fun _ => true) with hK₁
  have hKa : stepKeep peaks d K₁ a a = true := foldl_stepKeep_true l₂ _ a hka
  rw [stepKeep_self] at hKa
  have hb_false : stepKeep peaks d K₁ a b = false := by
    refine stepKeep_removes hKa (by omega) ?_
    have : |(peaks.getD b 0 : ℤ) - (peaks.getD a 0 : ℤ)|
        = |(peaks.getD a 0 : ℤ) - (peaks.getD b 0 : ℤ)| := abs_sub_comm _ _
    omega
  have := foldl_stepKeep_true l₂ (stepKeep peaks d K₁ a) b hkb
  rw [hb_false] at this
  cases this

theorem selectByPeakDistance_mem {peaks : List ℕ} {priority : List ℚ} {d : ℤ} {p : ℕ}
    (hp : p ∈ selectByPeakDistance peaks priority d) :
    ∃ a, a < peaks.length ∧
      keepAfter peaks d (List.insertionSort (prioGE priority) (List.range peaks.length)) a
        = true ∧ p = peaks.getD a 0 := by
  unfold selectByPeakDistance at hp
  simp only [List.mem_map, List.mem_filter, List.mem_range] at hp
  obtain ⟨a, ⟨haLen, haKeep⟩, haEq⟩ := hp
  exact ⟨a, haLen, haKeep, haEq.symm⟩

theorem selectByPeakDistance_far {peaks : List ℕ} {priority : List ℚ} {d : ℤ} {p q : ℕ}
    (hp : p ∈ selectByPeakDistance peaks priority d)
    (hq : q ∈ selectByPeakDistance peaks priority d) (hpq : p ≠ q) :
    d ≤ |(p : ℤ) - (q : ℤ)| := by
  obtain ⟨a, haLen, haKeep, rfl⟩ := selectByPeakDistance_mem hp
  obtain ⟨b, hbLen, hbKeep, rfl⟩ := selectByPeakDistance_mem hq
  have hab : a ≠ b := by
    intro h; exact hpq (by rw [h])
  have haMem : a ∈ List.insertionSort (prioGE priority) (List.range peaks.length) :=
    (List.perm_insertionSort (prioGE priority) (List.range peaks.length)).mem_iff.mpr
      (List.mem_range.mpr haLen)
  exact keepAfter_far haMem hab haKeep hbKeep

/-- The returned peak values sit at strictly increasing positions of a
strictly increasing peak list, so they are strictly increasing. -/
theorem selectByPeakDistance_pairwise {peaks : List ℕ} {priority : List ℚ} {d : ℤ}
    (hpk : List.Pairwise (· < ·) peaks) :
    List.Pairwise (· < ·) (selectByPeakDistance peaks priority d) := by
  unfold selectByPeakDistance
  refine List.pairwise_map.mpr ?_
  have hrange : List.Pairwise (· < ·) (List.range peaks.length) := List.sorted_lt_range _
  have hfil := List.Pairwise.filter
    (keepAfter peaks d (List.insertionSort (prioGE priority) (List.range peaks.length))) hrange
  refine hfil.imp_of_mem ?_
  intro a b hamem hbmem hab
  have haLen : a < peaks.length :=
    List.mem_range.mp (List.mem_of_mem_filter hamem)
  have hbLen : b < peaks.length :=
    List.mem_range.mp (List.mem_of_mem_filter hbmem)
  have := (List.pairwise_iff_getElem.mp hpk) a b haLen hbLen hab
  rwa [List.getD_eq_getElem _ _ haLen, List.getD_eq_getElem _ _ hbLen]

theorem selectByPeakDistance_subset {peaks : List ℕ} {priority : List ℚ} {d : ℤ} {p : ℕ}
    (hp : p ∈ selectByPeakDistance peaks priority d) : p ∈ peaks := by
  obtain ⟨a, haLen, _, rfl⟩ := selectByPeakDistance_mem hp
  rw [List.getD_eq_getElem _ _ haLen]
  exact List.getElem_mem haLen

theorem negList_getD (s : List ℚ) (k : ℕ) : (negList s).getD k 0 = -(s.getD k 0) := by
  by_cases h : k < s.length
  · have h' : k < (negList s).length := by simpa [negList] using h
    rw [List.getD_eq_getElem _ _ h', List.getD_eq_getElem _ _ h]
    simp [negList]
  · have h' : ¬ k < (negList s).length := by simpa [negList] using h
    rw [List.getD_eq_default _ _ (not_lt.mp h'), List.getD_eq_default _ _ (not_lt.mp h)]
    norm_num

theorem negList_length (s : List ℚ) : (negList s).length = s.length := by
  simp [negList]

/-- Unfolding a successful `find_peaks` run. -/
theorem find_peaks_ok {x : List ℚ} {height distance : ℚ} {res : List ℕ}
    (h : find_peaks x height distance = Except.ok res) :
    ¬ distance < 1 ∧
      res = selectByPeakDistance
        ((localMaxima x).filter (fun m => decide (height ≤ x.getD m 0)))
        (((localMaxima x).filter (fun m => decide (height ≤ x.getD m 0))).map
          (fun m => x.getD m 0))
        ⌈distance⌉ := by
  by_cases hd : distance < 1
  · rw [find_peaks, if_pos hd] at h; cases h
  · rw [find_peaks, if_neg hd] at h
    exact ⟨hd, (Except.ok.injEq _ _ |>.mp h).symm⟩

/-- Unfolding a successful `find_resonances` run. -/
theorem find_resonances_ok {sg : List ℚ → List ℚ} {wl pw : List ℚ}
    {md ms : ℚ} {res : List ℕ}
    (h : find_resonances sg wl pw md ms = Except.ok res) :
    ¬ pw.length < 11 ∧
      find_peaks (negList (sg pw)) md (ms / (1 / 1000)) = Except.ok res := by
  by_cases hl : pw.length < 11
  · rw [find_resonances, if_pos hl] at h; cases h
  · rw [find_resonances, if_neg hl] at h
    exact ⟨hl, h⟩

/-- Every index returned by `find_peaks` is a recorded local maximum that
passed the height filter. -/
theorem find_peaks_mem {x : List ℚ} {height distance : ℚ} {res : List ℕ} {p : ℕ}
    (h : find_peaks x height distance = Except.ok res) (hp : p ∈ res) :
    p ∈ localMaxima x ∧ height ≤ x.getD p 0 := by
  obtain ⟨-, hres⟩ := find_peaks_ok h
  subst hres
  have := selectByPeakDistance_subset hp
  have hmem := List.mem_filter.mp this
  exact ⟨hmem.1, of_decide_eq_true hmem.2⟩

/-- Indices returned by `find_peaks` are strictly increasing. -/
theorem find_peaks_sorted {x : List ℚ} {height distance : ℚ} {res : List ℕ}
    (h : find_peaks x height distance = Except.ok res) :
    List.Pairwise (· < ·) res := by
  obtain ⟨-, hres⟩ := find_peaks_ok h
  subst hres
  exact selectByPeakDistance_pairwise ((localMaxima_pairwise x).filter _)

/-- Distinct indices returned by `find_peaks` are at least `⌈distance⌉`
samples apart. -/
theorem find_peaks_far {x : List ℚ} {height distance : ℚ} {res : List ℕ} {p q : ℕ}
    (h : find_peaks x height distance = Except.ok res)
    (hp : p ∈ res) (hq : q ∈ res) (hpq : p ≠ q) :
    (⌈distance⌉ : ℤ) ≤ |(p : ℤ) - (q : ℤ)| := by
  obtain ⟨-, hres⟩ := find_peaks_ok h
  subst hres
  exact selectByPeakDistance_far hp hq hpq

/-- Every candidate returned by `find_resonances` is an interior weak
local minimum of the smoothed trace. -/
theorem find_resonances_weakLocalMin {sg : List ℚ → List ℚ} {wl pw : List ℚ}
    {md ms : ℚ} {res : List ℕ} {p : ℕ}
    (h : find_resonances sg wl pw md ms = Except.ok res) (hp : p ∈ res) :
    weakLocalMinAt (sg pw) p := by
  obtain ⟨-, hfp⟩ := find_resonances_ok h
  obtain ⟨hmax, -⟩ := find_peaks_mem hfp hp
  obtain ⟨hpos, hlt, hleft, hright⟩ := localMaxima_isMax hmax
  rw [negList_length] at hlt
  rw [negList_getD, negList_getD] at hleft hright
  refine ⟨hpos, by omega, by linarith, by linarith⟩

/-- Every candidate returned by `find_resonances` has smoothed power at
most `-min_depth` dBm: the code's `height=min_depth` filter is a filter on
the absolute value of the negated smoothed trace. -/
theorem find_resonances_height {sg : List ℚ → List ℚ} {wl pw : List ℚ}
    {md ms : ℚ} {res : List ℕ} {p : ℕ}
    (h : find_resonances sg wl pw md ms = Except.ok res) (hp : p ∈ res) :
    (sg pw).getD p 0 ≤ -md := by
  obtain ⟨-, hfp⟩ := find_resonances_ok h
  obtain ⟨-, hheight⟩ := find_peaks_mem hfp hp
  rw [negList_getD] at hheight
  linarith

theorem find_resonances_sorted {sg : List ℚ → List ℚ} {wl pw : List ℚ}
    {md ms : ℚ} {res : List ℕ}
    (h : find_resonances sg wl pw md ms = Except.ok res) :
    List.Pairwise (· < ·) res := by
  obtain ⟨-, hfp⟩ := find_resonances_ok h
  exact find_peaks_sorted hfp

theorem find_resonances_far {sg : List ℚ → List ℚ} {wl pw : List ℚ}
    {md ms : ℚ} {res : List ℕ} {p q : ℕ}
    (h : find_resonances sg wl pw md ms = Except.ok res)
    (hp : p ∈ res) (hq : q ∈ res) (hpq : p ≠ q) :
    (⌈ms / (1 / 1000)⌉ : ℤ) ≤ |(p : ℤ) - (q : ℤ)| := by
  obtain ⟨-, hfp⟩ := find_resonances_ok h
  exact find_peaks_far hfp hp hq hpq

theorem zip_map_filter_snd {α β γ : Type _} (f : β → γ) (p : α → Bool) :
    ∀ (l1 : List α) (l2 : List β),
      ((l1.zip (l2.map f)).filter (fun q => p q.1)).map Prod.snd
        = (((l1.zip l2).filter (fun q => p q.1)).map Prod.snd).map f := by
  intro l1
  induction l1 with
  | nil => intro l2; simp
  | cons a t ih =>
    intro l2
    cases l2 with
    | nil => simp
    | cons b s =>
      by_cases h : p a
      · simp only [List.map_cons, List.zip_cons_cons, List.filter_cons, h, if_pos,
          List.map_cons, ih s]
      · simp only [List.map_cons, List.zip_cons_cons, List.filter_cons, h]
        simp only [Bool.false_eq_true, if_false, ih s]

/-- The two duplicate scripts compute the same linear-power window:
convert-then-mask (ring_resonance_analysis.py) equals mask-then-convert
(ring_q_analysis.py). -/
theorem regionLin2_eq_regionLin (wl pw : List ℚ) (idx : ℕ) (window : ℚ) :
    regionLin2 wl pw idx window = regionLin wl pw idx window := by
  unfold regionLin2 regionLin regionPw
  exact zip_map_filter_snd toLinear (windowPred wl idx window) wl pw

/-- With equal-length columns (rows of one CSV), masking the power column
selects as many samples as masking the wavelength column. -/
theorem regionPw_length {wl pw : List ℚ} (h : wl.length = pw.length)
    (idx : ℕ) (window : ℚ) :
    (regionPw wl pw idx window).length = (regionWl wl idx window).length := by
  unfold regionPw regionWl
  rw [List.length_map]
  have : ∀ (p : ℚ → Bool) (l1 l2 : List ℚ), l1.length = l2.length →
      ((l1.zip l2).filter (fun q => p q.1)).length = (l1.filter p).length := by
    intro p l1
    induction l1 with
    | nil => intro l2 h'; simp
    | cons a t ih =>
      intro l2 h'
      cases l2 with
      | nil => simp at h'
      | cons b s =>
        simp only [List.length_cons, Nat.succ_inj] at h'
        by_cases hp : p a
        · simp only [List.zip_cons_cons, List.filter_cons, hp, if_pos, List.length_cons,
            ih s h']
        · simp only [List.zip_cons_cons, List.filter_cons, hp]
          simp only [Bool.false_eq_true, if_false, ih s h']
  exact this (windowPred wl idx window) wl pw h

/-! ### Supporting lemmas: telescoping spacings, sorted extremes, fit success -/

theorem diffs_sum : ∀ (t : List ℚ) (a : ℚ),
    (((a :: t).zip t).map (fun q => q.2 - q.1)).sum = t.getLastD a - a := by
  intro t
  induction t with
  | nil => intro a; simp
  | cons b t ih =>
    intro a
    simp only [List.zip_cons_cons, List.map_cons, List.sum_cons, List.getLastD_cons, ih b]
    ring

theorem diffs_length (t : List ℚ) (a : ℚ) :
    (((a :: t).zip t).map (fun q => q.2 - q.1)).length = t.length := by
  simp [List.length_zip]

theorem getLastD_mem : ∀ (t : List ℚ) (a : ℚ), t.getLastD a ∈ a :: t := by
  intro t
  induction t with
  | nil => intro a; exact List.mem_singleton.mpr rfl
  | cons b t ih =>
    intro a
    rw [List.getLastD_cons]
    exact List.mem_cons.mpr (Or.inr (ih b))

theorem sorted_le_getLastD : ∀ {t : List ℚ} {a : ℚ},
    List.Sorted (· ≤ ·) (a :: t) → ∀ b ∈ a :: t, b ≤ t.getLastD a := by
  intro t
  induction t with
  | nil =>
    intro a _ b hb
    rw [List.mem_singleton.mp hb]
    exact le_refl _
  | cons c t ih =>
    intro a hs b hb
    obtain ⟨hac, hs'⟩ := List.sorted_cons.mp hs
    rw [List.getLastD_cons]
    rcases List.mem_cons.mp hb with h | h
    · subst h
      exact (hac c (List.mem_cons_self c t)).trans
        (ih hs' c (List.mem_cons_self c t))
    · exact ih hs' b h

/-- The mean of the consecutive spacings of the sorted list telescopes to
the spread divided by the number of gaps. -/
theorem specMeanSpacing_eq (l : List ℚ) (h : 2 ≤ l.length) :
    specMeanSpacing l = (npMax l - npMin l) / ((l.length : ℚ) - 1) := by
  unfold specMeanSpacing specConsecutiveSpacings
  have hperm := List.perm_insertionSort (· ≤ ·) l
  have hsorted := List.sorted_insertionSort (· ≤ ·) l
  revert hperm hsorted
  generalize List.insertionSort (· ≤ ·) l = s
  intro hperm hsorted
  have hlen : s.length = l.length := hperm.length_eq
  have hne : s ≠ [] := by
    intro hnil
    rw [hnil] at hlen
    simp at hlen
    omega
  obtain ⟨a, t, rfl⟩ := List.exists_cons_of_ne_nil hne
  have htail : (a :: t).tail = t := rfl
  rw [htail, diffs_sum, diffs_length]
  have hmin : npMin l = a := by
    refine npMin_eq_of (hperm.mem_iff.mp (List.mem_cons_self a t)) ?_
    intro b hb
    have hb' : b ∈ a :: t := hperm.mem_iff.mpr hb
    rcases List.mem_cons.mp hb' with h' | h'
    · rw [h']
    · exact (List.sorted_cons.mp hsorted).1 b h'
  have hmax : npMax l = t.getLastD a := by
    refine npMax_eq_of (hperm.mem_iff.mp (getLastD_mem t a)) ?_
    intro b hb
    exact sorted_le_getLastD hsorted b (hperm.mem_iff.mpr hb)
  have hlen' : t.length = l.length - 1 := by
    have := hlen
    simp only [List.length_cons] at this
    omega
  rw [hmin, hmax, hlen']
  have : ((l.length - 1 : ℕ) : ℚ) = (l.length : ℚ) - 1 := by
    have h1 : 1 ≤ l.length := by omega
    push_cast [h1]
    ring
  rw [this]

/-- `calculate_fsr` on a list of at least two wavelengths succeeds and
returns exactly the spec's mean and standard deviation of consecutive
spacings of the sorted list. -/
theorem calculate_fsr_eq_spec (l : List ℚ) (h : 2 ≤ l.length) :
    calculate_fsr l = some (specMeanSpacing l, specStdSpacing l) := by
  rw [calculate_fsr, if_neg (by omega)]
  rfl

theorem calculate_fsr_none_iff (l : List ℚ) :
    calculate_fsr l = none ↔ l.length < 2 := by
  constructor
  · intro h
    by_contra hlen
    rw [calculate_fsr, if_neg hlen] at h
    cases h
  · intro h
    rw [calculate_fsr, if_pos h]

/-- Successful fit: unfolding `fit_single_resonance` when the window is
large enough and the optimizer returns parameters. -/
theorem fit_single_resonance_success {wl pw : List ℚ} {idx : ℕ} {window : ℚ}
    {opt : FitOracle} {popt : LorentzParams}
    (h10 : 10 ≤ (regionWl wl idx window).length)
    (hopt : opt (regionWl wl idx window) (regionLin wl pw idx window)
      (initialGuess wl pw idx window) = some popt) :
    fit_single_resonance wl pw idx window opt =
      some
        ⟨popt.x0, 2 * popt.gamma, 2 * popt.gamma * 1000, popt.x0 / (2 * popt.gamma),
          -10 * Real.logb 10
            (npMin (regionLin wl pw idx window) / npMax (regionLin wl pw idx window)),
          npMin (regionWl wl idx window), npMax (regionWl wl idx window)⟩ := by
  rw [fit_single_resonance, if_neg (by omega), hopt]

/-- Successful fit: unfolding `fit_resonance` when the window is large
enough and the optimizer returns parameters. -/
theorem fit_resonance_success {wl pw : List ℚ} {idx : ℕ} {window : ℚ}
    {opt : FitOracle} {popt : LorentzParams}
    (h10 : 10 ≤ (regionWl wl idx window).length)
    (hopt : opt (regionWl wl idx window) (regionLin2 wl pw idx window)
      (initialGuess2 wl pw idx window) = some popt) :
    fit_resonance wl pw idx window opt =
      some
        ⟨popt.x0, 2 * popt.gamma, popt.x0 / (2 * popt.gamma),
          -10 * Real.logb 10 ((popt.offset + popt.A) / popt.offset)⟩ := by
  have hcount : wl.countP (windowPred wl idx window) = (regionWl wl idx window).length := by
    rw [regionWl, List.countP_eq_length_filter]
  rw [fit_resonance, if_neg (by omega), hopt]

/-- Every element of the linear-power window is strictly positive. -/
theorem regionLin_mem_pos {wl pw : List ℚ} {idx : ℕ} {window : ℚ} {v : ℝ}
    (hv : v ∈ regionLin wl pw idx window) : 0 < v := by
  unfold regionLin at hv
  obtain ⟨q, -, rfl⟩ := List.mem_map.mp hv
  exact Real.rpow_pos_of_pos (by norm_num) _

/-- With equal-length columns and at least ten window samples, the
linear-power window is nonempty. -/
theorem regionLin_ne_nil {wl pw : List ℚ} {idx : ℕ} {window : ℚ}
    (hlen : wl.length = pw.length) (h10 : 10 ≤ (regionWl wl idx window).length) :
    regionLin wl pw idx window ≠ [] := by
  intro hnil
  have : (regionLin wl pw idx window).length = 0 := by rw [hnil]; rfl
  rw [regionLin, List.length_map, regionPw_length hlen] at this
  omega

/-- The transmission ratio of the window lies in `(0, 1]` and its
extinction ratio is nonnegative. -/
theorem extinction_ratio_facts {wl pw : List ℚ} {idx : ℕ} {window : ℚ}
    (hlen : wl.length = pw.length) (h10 : 10 ≤ (regionWl wl idx window).length) :
    0 < npMin (regionLin wl pw idx window) ∧
      0 < npMin (regionLin wl pw idx window) / npMax (regionLin wl pw idx window) ∧
      npMin (regionLin wl pw idx window) / npMax (regionLin wl pw idx window) ≤ 1 ∧
      0 ≤ -10 * Real.logb 10
        (npMin (regionLin wl pw idx window) / npMax (regionLin wl pw idx window)) := by
  have hne := regionLin_ne_nil hlen h10
  have hminpos : 0 < npMin (regionLin wl pw idx window) :=
    regionLin_mem_pos (npMin_mem hne)
  have hmaxpos : 0 < npMax (regionLin wl pw idx window) :=
    lt_of_lt_of_le hminpos (npMin_le_npMax hne)
  have hratpos : 0 < npMin (regionLin wl pw idx window) / npMax (regionLin wl pw idx window) :=
    div_pos hminpos hmaxpos
  have hratle : npMin (regionLin wl pw idx window) / npMax (regionLin wl pw idx window) ≤ 1 :=
    (div_le_one hmaxpos).mpr (npMin_le_npMax hne)
  refine ⟨hminpos, hratpos, hratle, ?_⟩
  have hlb : Real.logb 10
      (npMin (regionLin wl pw idx window) / npMax (regionLin wl pw idx window)) ≤ 0 :=
    Real.logb_nonpos (by norm_num) (le_of_lt hratpos) hratle
  nlinarith

/-! ### Claims -/

/-- C1, counterexample.  The claim states that every successfully fitted
resonance has strictly positive Q-factor and FWHM and a centre wavelength
inside the fit sub-window.  The code imposes no bounds on `curve_fit` and
derives `fwhm = 2*popt[2]` and `resonance_wavelength = popt[1]` without
any check; the Lorentzian model depends on `gamma` only through
`gamma**2`, so a sign-flipped width is a reachable optimizer output.
Concretely, with the optimizer returning `gamma = -0.05`, `x0 = 2000` on
an 11-sample window around 0.5 nm (window edge 1.5 nm), the fit succeeds
and returns a negative FWHM and a centre wavelength far outside the
window. -/
theorem c1_counterexample :
    (fit_single_resonance wl11 pwZero 5 1 optBad).map FittedResonance.fwhm_nm
        = some (2 * -((1 : ℝ) / 20)) ∧
      2 * -((1 : ℝ) / 20) < 0 ∧
      (fit_single_resonance wl11 pwZero 5 1 optBad).map FittedResonance.resonance_wavelength
        = some (2000 : ℝ) ∧
      wl11.getD 5 0 + 1 < 2000 := by
  have h10 : 10 ≤ (regionWl wl11 5 1).length := by with_unfolding_all decide
  have hfit := @fit_single_resonance_success wl11 pwZero 5 1 optBad
    ⟨1, 2000, -(1 / 20), 1⟩ h10 rfl
  refine ⟨?_, by norm_num, ?_, by with_unfolding_all decide⟩
  · rw [hfit]; rfl
  · rw [hfit]; rfl

/-- C1, amended.  For whatever parameters the optimizer returns, the fit
derives `FWHM = 2*gamma` and `Q = x0 / FWHM` and copies `x0` as the
centre wavelength; FWHM and Q are therefore strictly positive whenever
the optimizer's `gamma` and `x0` are strictly positive (the code itself
enforces no such constraint, and no constraint on the centre's location). -/
theorem c1_amended (wl pw : List ℚ) (idx : ℕ) (window : ℚ) (opt : FitOracle)
    (popt : LorentzParams)
    (h10 : 10 ≤ (regionWl wl idx window).length)
    (hopt : opt (regionWl wl idx window) (regionLin wl pw idx window)
      (initialGuess wl pw idx window) = some popt)
    (hg : 0 < popt.gamma) (hx : 0 < popt.x0) :
    ∃ r, fit_single_resonance wl pw idx window opt = some r ∧
      0 < r.fwhm_nm ∧ 0 < r.Q_factor ∧
      r.resonance_wavelength = popt.x0 ∧ r.fwhm_nm = 2 * popt.gamma := by
  refine ⟨_, fit_single_resonance_success h10 hopt, ?_, ?_, rfl, rfl⟩
  · simpa using by linarith
  · exact div_pos hx (by linarith)

theorem c1_witness : (fit_single_resonance wl11 pwZero 5 1 optGood).isSome = true := by
  obtain ⟨r, hr, -⟩ := c1_amended wl11 pwZero 5 1 optGood ⟨1, 1550, 1 / 20, 1⟩
    (by with_unfolding_all decide) rfl (by norm_num) (by norm_num)
  rw [hr]; rfl

/-- C2, counterexample.  The claim states that a spectrum with fewer
samples than the smoothing window (5 samples, window length 11) yields an
empty candidate sequence rather than an exception.  The code calls
`savgol_filter(powers, 11, 3)` unconditionally, and scipy's
`savgol_filter` with the default `mode='interp'` raises ValueError
whenever the input is shorter than the window length, so the call raises
instead of returning an empty sequence. -/
theorem c2_counterexample :
    find_resonances sgId wl5 pw5 3 (1 / 10) = Except.error () ∧
      find_resonances sgId wl5 pw5 3 (1 / 10) ≠ Except.ok [] := by
  constructor
  · with_unfolding_all decide
  · with_unfolding_all decide

/-- C2, amended.  For every spectrum with fewer than 11 power samples,
resonance detection raises (the ValueError of `savgol_filter`) instead of
returning a candidate list. -/
theorem c2_amended (sg : List ℚ → List ℚ) (wl pw : List ℚ) (md ms : ℚ)
    (h : pw.length < 11) :
    find_resonances sg wl pw md ms = Except.error () := by
  rw [find_resonances, if_pos h]

theorem c2_witness : find_resonances sgId wl5 pw7 3 (1 / 10) = Except.error () :=
  c2_amended sgId wl5 pw7 3 (1 / 10) (by decide)

/-- C3, counterexample.  The claim states that every returned candidate
has depth at least `min_depth` (3 dB) below the neighbouring local
maxima.  The code passes `height=min_depth` to `find_peaks`, which is an
absolute threshold on `-smoothed`, not a relative one: on a trace whose
smoothed values all lie between -5 and -4 dBm, the dip at index 5 is
returned although it sits only 1 dB below the neighbouring local maxima
(indices 4 and 6, both -4 dBm), and only 1 dB below every sample of the
trace. -/
theorem c3_counterexample :
    find_resonances sgId wl11 pwShallow 3 (1 / 10) = Except.ok [5] ∧
      pwShallow.getD 4 0 - pwShallow.getD 5 0 = 1 ∧
      pwShallow.getD 6 0 - pwShallow.getD 5 0 = 1 ∧
      (pwShallow.all fun v => decide (v - pwShallow.getD 5 0 ≤ 1)) = true ∧
      ¬ (3 : ℚ) ≤ 1 := by
  refine ⟨?_, ?_, ?_, ?_, by norm_num⟩
  · with_unfolding_all decide
  · with_unfolding_all decide
  · with_unfolding_all decide
  · with_unfolding_all decide

/-- C3, amended.  Every candidate returned by detection is an interior
weak local minimum of the smoothed trace whose smoothed value is at most
`-min_depth` dBm (an absolute threshold); no filtering relative to the
neighbouring local maxima takes place. -/
theorem c3_amended (sg : List ℚ → List ℚ) (wl pw : List ℚ) (md ms : ℚ)
    (res : List ℕ) (h : find_resonances sg wl pw md ms = Except.ok res) :
    ∀ p ∈ res, weakLocalMinAt (sg pw) p ∧ (sg pw).getD p 0 ≤ -md := fun p hp =>
  ⟨find_resonances_weakLocalMin h hp, find_resonances_height h hp⟩

theorem c3_witness :
    weakLocalMinAt (sgId pwShallow) 5 ∧ (sgId pwShallow).getD 5 0 ≤ -3 :=
  c3_amended sgId wl11 pwShallow 3 (1 / 10) [5]
    (by with_unfolding_all decide) 5 (List.mem_singleton.mpr rfl)

/-- C4, counterexample.  The claim states that `calculate_effective_index`
and the inline computation in `analyze_all_resonances` compute the same
quantity.  They do not: the first computes
`1550**2 / (fsr * 2*pi*radius * 1e-3)` and the second computes
`(fsr * 2*pi*radius) / (1550**2 * 1e-3)` — an inverted rearrangement of
the resonance condition.  At `fsr = 1`, `radius = 1` the first exceeds 3
while the second is below 3. -/
theorem c4_counterexample :
    (calculate_effective_index 1 1).2 ≠ inline_effective_index 1 1 := by
  have hpi1 : Real.pi < 3.15 := Real.pi_lt_d2
  have hpi2 : 3 < Real.pi := Real.pi_gt_three
  have hc : (calculate_effective_index 1 1).2
      = 1550 ^ 2 / (1 * (2 * Real.pi * 1) * (1 / 1000)) := rfl
  have hi : inline_effective_index 1 1
      = (1 * 2 * Real.pi * 1) / (1550 ^ 2 * (1 / 1000)) := rfl
  rw [hc, hi]
  intro heq
  have hd : (0 : ℝ) < 1 * (2 * Real.pi * 1) * (1 / 1000) := by nlinarith
  have hD : (0 : ℝ) < 1550 ^ 2 * (1 / 1000) := by norm_num
  rw [div_eq_div_iff (ne_of_gt hd) (ne_of_gt hD)] at heq
  nlinarith [mul_pos (sub_pos.mpr hpi1) (by linarith : (0 : ℝ) < Real.pi + 3.15)]

/-- C4, amended.  `calculate_effective_index` returns a pair with
`n_eff = n_g`, and its `n_g` satisfies
`n_g * (fsr * 2*pi*R * 1e-3) = 1550**2` — the code's own rearrangement of
`FSR = lambda**2 / (n_g * L)` with its `1e-3` unit factor; the inline
computation in `analyze_all_resonances` instead satisfies
`n_eff * (1550**2 * 1e-3) = fsr * 2*pi*R`, the reciprocal arrangement,
so the two duplicates do not compute the same quantity. -/
theorem c4_amended (f r : ℝ) (hf : f ≠ 0) (hr : r ≠ 0) :
    (calculate_effective_index f r).1 = (calculate_effective_index f r).2 ∧
      (calculate_effective_index f r).2 * (f * (2 * Real.pi * r) * (1 / 1000))
        = 1550 ^ 2 ∧
      inline_effective_index f r * (1550 ^ 2 * (1 / 1000)) = f * 2 * Real.pi * r := by
  refine ⟨rfl, ?_, ?_⟩
  · show 1550 ^ 2 / (f * (2 * Real.pi * r) * (1 / 1000))
        * (f * (2 * Real.pi * r) * (1 / 1000)) = 1550 ^ 2
    have hne : f * (2 * Real.pi * r) * (1 / 1000) ≠ 0 := by
      have h2 : (2 : ℝ) * Real.pi * r ≠ 0 :=
        mul_ne_zero (mul_ne_zero two_ne_zero Real.pi_ne_zero) hr
      exact mul_ne_zero (mul_ne_zero hf h2) (by norm_num)
    exact div_mul_cancel₀ _ hne
  · show (f * 2 * Real.pi * r) / (1550 ^ 2 * (1 / 1000)) * (1550 ^ 2 * (1 / 1000))
        = f * 2 * Real.pi * r
    exact div_mul_cancel₀ _ (by norm_num)

theorem c4_witness :
    (calculate_effective_index 1 1).1 = (calculate_effective_index 1 1).2 ∧
      (calculate_effective_index 1 1).2 * (1 * (2 * Real.pi * 1) * (1 / 1000))
        = 1550 ^ 2 ∧
      inline_effective_index 1 1 * (1550 ^ 2 * (1 / 1000)) = 1 * 2 * Real.pi * 1 :=
  c4_amended 1 1 one_ne_zero one_ne_zero

/-- C5, counterexample.  The claim states that no two returned candidates
are closer than `min_separation` in wavelength, the separation being
converted to samples via the spectrum's own sampling interval.  The code
converts with the hard-coded factor `min_separation/0.001`, ignoring the
wavelength axis entirely (the `wavelengths` argument is unused): on a
spectrum sampled every 0.0005 nm with dips at indices 5 and 15, both
candidates are returned although they are 0.005 nm apart, closer than
`min_separation = 0.01` nm. -/
theorem c5_counterexample :
    find_resonances sgId wl21 pw21 3 (1 / 100) = Except.ok [5, 15] ∧
      wl21.getD 15 0 - wl21.getD 5 0 < 1 / 100 := by
  constructor
  · with_unfolding_all decide
  · with_unfolding_all decide

/-- C5, amended.  The returned candidate indices are strictly increasing
(hence ordered by wavelength), are interior weak local minima of the
smoothed trace, and any two distinct candidates are at least
`ceil(min_separation/0.001)` samples apart — a fixed assumed sampling
interval of 0.001 nm, not the spectrum's own. -/
theorem c5_amended (sg : List ℚ → List ℚ) (wl pw : List ℚ) (md ms : ℚ)
    (res : List ℕ) (h : find_resonances sg wl pw md ms = Except.ok res) :
    List.Pairwise (· < ·) res ∧
      (∀ p ∈ res, weakLocalMinAt (sg pw) p) ∧
      ∀ p ∈ res, ∀ q ∈ res, p ≠ q →
        (⌈ms / (1 / 1000)⌉ : ℤ) ≤ |(p : ℤ) - (q : ℤ)| := by
  refine ⟨find_resonances_sorted h, ?_, ?_⟩
  · intro p hp
    exact find_resonances_weakLocalMin h hp
  · intro p hp q hq hpq
    exact find_resonances_far h hp hq hpq

theorem c5_witness :
    (⌈((1 : ℚ) / 100) / (1 / 1000)⌉ : ℤ) ≤ |((5 : ℕ) : ℤ) - ((15 : ℕ) : ℤ)| := by
  have h := c5_amended sgId wl21 pw21 3 (1 / 100) [5, 15] (by with_unfolding_all decide)
  exact h.2.2 5 (by decide) 15 (by decide) (by decide)

/-- C6, counterexample.  The claim states that every duplicate copy of
the fit returns the extinction ratio
`-10*log10(transmission_min/transmission_max)` over the window.
`fit_resonance` (ring_resonance_analysis.py) instead returns
`depth_dB = -10*log10((popt[3]+popt[0])/popt[3])` computed from the
fitted parameters: on a flat 0 dBm window (all linear powers 1, window
formula value 0) with the optimizer returning `A = 1`, `offset = 1`, it
returns `-10*log10(2) < 0`, not the window value 0. -/
theorem c6_counterexample :
    (fit_resonance wl11 pwZero 5 1 optGood).map FittedResonance2.depth_dB
        = some (-10 * Real.logb 10 2) ∧
      -10 * Real.logb 10
          (npMin (regionLin2 wl11 pwZero 5 1) / npMax (regionLin2 wl11 pwZero 5 1))
        = 0 ∧
      -10 * Real.logb 10 2 ≠ 0 := by
  have h10 : 10 ≤ (regionWl wl11 5 1).length := by with_unfolding_all decide
  have hfit := @fit_resonance_success wl11 pwZero 5 1 optGood ⟨1, 1550, 1 / 20, 1⟩ h10 rfl
  refine ⟨?_, ?_, ?_⟩
  · rw [hfit]
    show some (-10 * Real.logb 10 ((1 + 1) / 1)) = some (-10 * Real.logb 10 2)
    norm_num
  · rw [regionLin2_eq_regionLin]
    have hpw : regionPw wl11 pwZero 5 1 = pwZero := by with_unfolding_all decide
    have h0 : toLinear 0 = 1 := by
      have hz : ((0 : ℚ) : ℝ) / 10 = 0 := by norm_num
      rw [toLinear, hz, Real.rpow_zero]
    have hlin : regionLin wl11 pwZero 5 1 = List.replicate 11 (1 : ℝ) := by
      rw [regionLin, hpw]
      show pwZero.map toLinear = _
      simp only [pwZero, List.map_cons, List.map_nil, h0]
      rfl
    rw [hlin]
    have hmem : (1 : ℝ) ∈ List.replicate 11 (1 : ℝ) :=
      List.mem_replicate.mpr ⟨by norm_num, rfl⟩
    have hmin : npMin (List.replicate 11 (1 : ℝ)) = 1 :=
      npMin_eq_of hmem (fun b hb => le_of_eq (List.eq_of_mem_replicate hb).symm)
    have hmax : npMax (List.replicate 11 (1 : ℝ)) = 1 :=
      npMax_eq_of hmem (fun b hb => le_of_eq (List.eq_of_mem_replicate hb))
    rw [hmin, hmax]
    norm_num
  · have : 0 < Real.logb 10 2 := Real.logb_pos (by norm_num) (by norm_num)
    intro hzero
    nlinarith

/-- C6, amended.  On success both fits derive `FWHM = 2*gamma` and
`Q = lambda0 / FWHM` from the fitted parameters; `fit_single_resonance`
returns the window extinction ratio
`-10*log10(transmission_min/transmission_max)`, while `fit_resonance`
instead returns `depth_dB = -10*log10((offset+A)/offset)` computed from
the fitted parameters. -/
theorem c6_amended (wl pw : List ℚ) (idx : ℕ) (window : ℚ) (opt : FitOracle)
    (popt popt2 : LorentzParams)
    (h10 : 10 ≤ (regionWl wl idx window).length)
    (h1 : opt (regionWl wl idx window) (regionLin wl pw idx window)
      (initialGuess wl pw idx window) = some popt)
    (h2 : opt (regionWl wl idx window) (regionLin2 wl pw idx window)
      (initialGuess2 wl pw idx window) = some popt2) :
    (∃ r, fit_single_resonance wl pw idx window opt = some r ∧
        r.fwhm_nm = 2 * popt.gamma ∧
        r.Q_factor = r.resonance_wavelength / r.fwhm_nm ∧
        r.extinction_ratio_dB = -10 * Real.logb 10
          (npMin (regionLin wl pw idx window) / npMax (regionLin wl pw idx window))) ∧
      ∃ r2, fit_resonance wl pw idx window opt = some r2 ∧
        r2.fwhm = 2 * popt2.gamma ∧
        r2.Q_factor = r2.resonance_wavelength / r2.fwhm ∧
        r2.depth_dB = -10 * Real.logb 10 ((popt2.offset + popt2.A) / popt2.offset) :=
  ⟨⟨_, fit_single_resonance_success h10 h1, rfl, rfl, rfl⟩,
    ⟨_, fit_resonance_success h10 h2, rfl, rfl, rfl⟩⟩

theorem c6_witness :
    (fit_single_resonance wl11 pwZero 5 1 optGood).map FittedResonance.fwhm_nm
        = some (2 * ((1 : ℝ) / 20)) ∧
      (fit_resonance wl11 pwZero 5 1 optGood).map FittedResonance2.fwhm
        = some (2 * ((1 : ℝ) / 20)) := by
  obtain ⟨⟨r, hr, hf, -, -⟩, ⟨r2, hr2, hf2, -, -⟩⟩ :=
    c6_amended wl11 pwZero 5 1 optGood ⟨1, 1550, 1 / 20, 1⟩ ⟨1, 1550, 1 / 20, 1⟩
      (by with_unfolding_all decide) rfl rfl
  constructor
  · rw [hr]
    exact congrArg some hf
  · rw [hr2]
    exact congrArg some hf2

/-- C7.  `calculate_fsr` returns `None` exactly when fewer than two
wavelengths are given (never a fabricated zero); the aggregation step of
`analyze_ring_spectrum` then leaves the FSR and the group/effective index
undefined exactly in that case; and with at least two wavelengths the
result is the mean and population standard deviation of the consecutive
spacings of the sorted centre wavelengths, as the spec states them. -/
theorem c7_fsr_undefined_propagation (l : List ℚ) (radius : ℝ) :
    (calculate_fsr l = none ↔ l.length < 2) ∧
      ((aggregate_fsr_index l radius).1 = none ↔ l.length < 2) ∧
      ((aggregate_fsr_index l radius).2 = none ↔ l.length < 2) ∧
      (2 ≤ l.length → calculate_fsr l = some (specMeanSpacing l, specStdSpacing l)) := by
  refine ⟨calculate_fsr_none_iff l, ?_, ?_, calculate_fsr_eq_spec l⟩
  · by_cases h : 2 ≤ l.length
    · rw [aggregate_fsr_index, if_pos h, calculate_fsr_eq_spec l h]
      simp only [reduceCtorEq, false_iff]
      omega
    · rw [aggregate_fsr_index, if_neg h]
      simp only [true_iff]
      omega
  · by_cases h : 2 ≤ l.length
    · rw [aggregate_fsr_index, if_pos h, calculate_fsr_eq_spec l h]
      simp only [reduceCtorEq, false_iff]
      omega
    · rw [aggregate_fsr_index, if_neg h]
      simp only [true_iff]
      omega

theorem c7_witness :
    calculate_fsr [(1 : ℚ)] = none ∧ calculate_fsr ([] : List ℚ) = none := by
  refine ⟨(c7_fsr_undefined_propagation [(1 : ℚ)] 10).1.mpr (by decide), ?_⟩
  exact (c7_fsr_undefined_propagation ([] : List ℚ) 10).1.mpr (by decide)

/-- C8.  A candidate whose ±window sub-window holds fewer than 10 samples
is skipped: the fit returns `None` (no exception is modelled for this
path because the code returns before calling `curve_fit`), and the
per-candidate loop of `analyze_ring_spectrum` produces the same fitted
list as if the candidate were absent, leaving all other candidates
unaffected. -/
theorem c8_small_window_skipped (wl pw : List ℚ) (idx : ℕ) (window : ℚ)
    (opt : FitOracle) (pre post : List ℕ)
    (h : (regionWl wl idx window).length < 10) :
    fit_single_resonance wl pw idx window opt = none ∧
      fitAll wl pw (pre ++ idx :: post) window opt
        = fitAll wl pw (pre ++ post) window opt := by
  have hnone : fit_single_resonance wl pw idx window opt = none := by
    rw [fit_single_resonance, if_pos h]
  refine ⟨hnone, ?_⟩
  unfold fitAll
  rw [List.filterMap_append, List.filterMap_append, List.filterMap_cons, hnone]

theorem c8_witness : fit_single_resonance wlSparse pwZero 5 1 optGood = none :=
  (c8_small_window_skipped wlSparse pwZero 5 1 optGood [0] [10]
    (by with_unfolding_all decide)).1

/-- C9.  With `n ≥ 2` wavelengths the mean FSR returned by
`calculate_fsr` telescopes: it equals `(max - min) / (n - 1)` and is
therefore independent of the interior resonance positions. -/
theorem c9_mean_fsr_telescopes (l : List ℚ) (h : 2 ≤ l.length) :
    (calculate_fsr l).map Prod.fst
      = some ((npMax l - npMin l) / ((l.length : ℚ) - 1)) := by
  rw [calculate_fsr_eq_spec l h]
  exact congrArg some (specMeanSpacing_eq l h)

theorem c9_witness :
    (calculate_fsr [1, 3, 8]).map Prod.fst = some ((7 : ℚ) / 2) := by
  rw [c9_mean_fsr_telescopes [1, 3, 8] (by decide)]
  with_unfolding_all decide

/-- C10.  Whenever the fit succeeds, the window's linear powers are the
values `10**(p/10) > 0`, so the transmission ratio min/max lies in
`(0, 1]`, and the returned extinction ratio `-10*log10(min/max)` is
well-defined and nonnegative. -/
theorem c10_extinction_nonneg (wl pw : List ℚ) (idx : ℕ) (window : ℚ)
    (opt : FitOracle) (popt : LorentzParams)
    (hlen : wl.length = pw.length)
    (h10 : 10 ≤ (regionWl wl idx window).length)
    (hopt : opt (regionWl wl idx window) (regionLin wl pw idx window)
      (initialGuess wl pw idx window) = some popt) :
    ∃ r, fit_single_resonance wl pw idx window opt = some r ∧
      0 < npMin (regionLin wl pw idx window) ∧
      0 < npMin (regionLin wl pw idx window) / npMax (regionLin wl pw idx window) ∧
      npMin (regionLin wl pw idx window) / npMax (regionLin wl pw idx window) ≤ 1 ∧
      0 ≤ r.extinction_ratio_dB := by
  obtain ⟨hmin, hrat, hle, her⟩ := extinction_ratio_facts hlen h10
  exact ⟨_, fit_single_resonance_success h10 hopt, hmin, hrat, hle, her⟩

theorem c10_witness :
    0 < npMin (regionLin wl11 pwZero 5 1) ∧
      (fit_single_resonance wl11 pwZero 5 1 optGood).isSome = true := by
  obtain ⟨r, hr, hmin, -⟩ := c10_extinction_nonneg wl11 pwZero 5 1 optGood
    ⟨1, 1550, 1 / 20, 1⟩ (by decide) (by with_unfolding_all decide) rfl
  exact ⟨hmin, by rw [hr]; rfl⟩

end PHCEP
